import Mathlib

/-!
Verification of the macleod CLIF front-end: the logical AST, the FF-PCNF
axiom pipeline, the TPTP/LADR serializers, the parser's error/empty-input
behavior, and the Vampire output classifier.

The AST node model and the pipeline helpers (`logical.Symbol`,
`logical.Connective`, `logical.Quantifier`, `logical.Negation`,
`logical.Utils`) are imported by `macleod/logical/Axiom.py` but their
sources are not part of the repository snapshot; those definitions are
modelled from the specification (and from the worked examples in
`macleod/logical/tests/test_Axiom.py`, which the specification designates
as the executable specification).  Everything else is translated directly
from the Python sources (`Axiom.py`, `Parser.py`, `Reasoner.py`).
-/

namespace Macleod

/-- Modelled from the spec: the argument shape of `Symbol.Predicate` /
`Symbol.Function` — an argument is a variable (a plain name) or a nested
`Function` application. -/
inductive LTerm where
  | var : String → LTerm
  | func : String → List LTerm → LTerm
deriving Repr

/-- Modelled from the spec: the closed tagged-variant logical AST
(`Predicate`, `Negation`, `Conjunction`, `Disjunction`, `Universal`,
`Existential`; `Function` lives inside predicate arguments of `LTerm`). -/
inductive Logical where
  | pred : String → List LTerm → Logical
  | neg : Logical → Logical
  | conj : List Logical → Logical
  | disj : List Logical → Logical
  | univ : List String → Logical → Logical
  | exist : List String → Logical → Logical
deriving Repr

/-- Structural induction principle for `LTerm` (nested through `List`). -/
def LTerm.myInduction (P : LTerm → Prop)
    (hvar : ∀ v, P (.var v))
    (hfunc : ∀ n args, (∀ t ∈ args, P t) → P (.func n args)) : ∀ t, P t
  | .var v => hvar v
  | .func n args => hfunc n args (fun t _ => LTerm.myInduction P hvar hfunc t)

/-- Structural induction principle for `Logical` (nested through `List`). -/
def Logical.myInduction (P : Logical → Prop)
    (hpred : ∀ n args, P (.pred n args))
    (hneg : ∀ t, P t → P (.neg t))
    (hconj : ∀ ts, (∀ t ∈ ts, P t) → P (.conj ts))
    (hdisj : ∀ ts, (∀ t ∈ ts, P t) → P (.disj ts))
    (huniv : ∀ vs t, P t → P (.univ vs t))
    (hexist : ∀ vs t, P t → P (.exist vs t)) : ∀ t, P t
  | .pred n args => hpred n args
  | .neg t => hneg t (Logical.myInduction P hpred hneg hconj hdisj huniv hexist t)
  | .conj ts => hconj ts (fun t _ => Logical.myInduction P hpred hneg hconj hdisj huniv hexist t)
  | .disj ts => hdisj ts (fun t _ => Logical.myInduction P hpred hneg hconj hdisj huniv hexist t)
  | .univ vs t => huniv vs t (Logical.myInduction P hpred hneg hconj hdisj huniv hexist t)
  | .exist vs t => hexist vs t (Logical.myInduction P hpred hneg hconj hdisj huniv hexist t)

/-- `Axiom`: one AST root plus the integer id assigned at construction from
the process-wide counter `Axiom.axiom_id` (`Axiom.__init__`).  The mutable
class counter is modelled as explicitly threaded state: constructing an
axiom consumes the current counter value as its id. -/
structure Axiom where
  sentence : Logical
  id : Nat
deriving Repr

/-- `Axiom.__init__`: the new axiom takes the current counter value as its
id and the counter is incremented (`Axiom.axiom_id = Axiom.axiom_id + 1`). -/
def mkAxiom (s : Logical) (ctr : Nat) : Axiom × Nat :=
  (⟨s, ctr⟩, ctr + 1)

/-! ## Serializers (translated from `Axiom.to_tptp` / `Axiom.to_ladr`) -/

/-- Python's `str.upper`: upper-case every character. -/
def str_upper (s : String) : String := String.mk (s.data.map Char.toUpper)

/-- Python's `str.lower`: lower-case every character. -/
def str_lower (s : String) : String := String.mk (s.data.map Char.toLower)

mutual
/-- `tptp_logical` of `Axiom.to_tptp`, on predicate/function arguments: a
plain string is upper-cased, a `Function` renders prefix with lower-cased
name. -/
def tptp_term : LTerm → String
  | .var v => str_upper v
  | .func n args => str_lower n ++ "(" ++ String.intercalate "," (tptp_term_list args) ++ ")"

def tptp_term_list : List LTerm → List String
  | [] => []
  | t :: ts => tptp_term t :: tptp_term_list ts
end

/-- Modelled from the spec: `Symbol.Predicate.is_equality` — a predicate
whose name is `"="` is an equality predicate. -/
def is_equality (name : String) : Bool := name = "="

mutual
/-- `tptp_logical` of `Axiom.to_tptp`.  The equality branch reads
`variables[0]` and `variables[1]`; with fewer than two arguments the
source raises `IndexError`, a case no claim touches — here it falls
through to the prefix form. -/
def tptp_logical : Logical → String
  | .pred n args =>
      if is_equality n then
        match args with
        | a :: b :: _ => tptp_term a ++ n ++ tptp_term b
        | _ => str_lower n ++ "(" ++ String.intercalate "," (tptp_term_list args) ++ ")"
      else
        str_lower n ++ "(" ++ String.intercalate "," (tptp_term_list args) ++ ")"
  | .neg (.neg u) => tptp_logical u
  | .neg (.pred n args) => "~(" ++ tptp_logical (.pred n args) ++ ")"
  | .neg t => "~" ++ tptp_logical t
  | .conj ts => "(" ++ String.intercalate " & " (tptp_logical_list ts) ++ ")"
  | .disj ts => "(" ++ String.intercalate " | " (tptp_logical_list ts) ++ ")"
  | .univ vs t =>
      "(" ++ String.join (vs.map (fun v => "! [" ++ str_upper v ++ "] : ")) ++ " (" ++ tptp_logical t ++ "))"
  | .exist vs t =>
      "(" ++ String.join (vs.map (fun v => "? [" ++ str_upper v ++ "] : ")) ++ " (" ++ tptp_logical t ++ "))"

def tptp_logical_list : List Logical → List String
  | [] => []
  | t :: ts => tptp_logical t :: tptp_logical_list ts
end

/-- `Axiom.to_tptp`: `fof(axiom<id*10>, axiom, <body>).` -/
def Axiom.to_tptp (a : Axiom) : String :=
  "fof(axiom" ++ toString (a.id * 10) ++ ", axiom, " ++ tptp_logical a.sentence ++ ")."

mutual
/-- `ladr_logical` of `Axiom.to_ladr` on arguments: a plain string is kept
as is; a `Function` renders prefix joining its raw argument strings (the
source `",".join(logical.variables)` raises `TypeError` on a non-string
argument; here a nested function argument is rendered recursively, a case
no claim touches). -/
def ladr_term : LTerm → String
  | .var v => v
  | .func n args => n ++ "(" ++ String.intercalate "," (ladr_term_list args) ++ ")"

def ladr_term_list : List LTerm → List String
  | [] => []
  | t :: ts => ladr_term t :: ladr_term_list ts
end

mutual
/-- `ladr_logical` of `Axiom.to_ladr`: no case conversion, no equality
special case, `-` negation, `all`/`exists` quantifier words. -/
def ladr_logical : Logical → String
  | .pred n args => n ++ "(" ++ String.intercalate "," (ladr_term_list args) ++ ")"
  | .neg (.neg u) => ladr_logical u
  | .neg (.pred n args) => "-(" ++ ladr_logical (.pred n args) ++ ")"
  | .neg t => "-" ++ ladr_logical t
  | .conj ts => "(" ++ String.intercalate " & " (ladr_logical_list ts) ++ ")"
  | .disj ts => "(" ++ String.intercalate " | " (ladr_logical_list ts) ++ ")"
  | .univ vs t =>
      "(" ++ String.join (vs.map (fun v => "all " ++ v ++ " ")) ++ " " ++ ladr_logical t ++ ")"
  | .exist vs t =>
      "(" ++ String.join (vs.map (fun v => "exists " ++ v ++ " ")) ++ " " ++ ladr_logical t ++ ")"

def ladr_logical_list : List Logical → List String
  | [] => []
  | t :: ts => ladr_logical t :: ladr_logical_list ts
end

/-- `Axiom.to_ladr`: `<body>.` -/
def Axiom.to_ladr (a : Axiom) : String :=
  ladr_logical a.sentence ++ "."

mutual
/-- Modelled from the spec: the canonical debug rendering of `Logical`
nodes (`__repr__` of the missing node classes), using `∀`, `∃`, `~`,
`&`, `|`, as exercised throughout `test_Axiom.py`. -/
def repr_term : LTerm → String
  | .var v => v
  | .func n args => n ++ "(" ++ String.intercalate "," (repr_term_list args) ++ ")"

def repr_term_list : List LTerm → List String
  | [] => []
  | t :: ts => repr_term t :: repr_term_list ts
end

mutual
/-- Modelled from the spec: canonical debug rendering of a `Logical`
tree, matching the strings asserted in `test_Axiom.py`. -/
def repr_logical : Logical → String
  | .pred n args => n ++ "(" ++ String.intercalate "," (repr_term_list args) ++ ")"
  | .neg t => "~" ++ repr_logical t
  | .conj ts => "(" ++ String.intercalate " & " (repr_logical_list ts) ++ ")"
  | .disj ts => "(" ++ String.intercalate " | " (repr_logical_list ts) ++ ")"
  | .univ vs t => "∀(" ++ String.intercalate "," vs ++ ")[" ++ repr_logical t ++ "]"
  | .exist vs t => "∃(" ++ String.intercalate "," vs ++ ")[" ++ repr_logical t ++ "]"

def repr_logical_list : List Logical → List String
  | [] => []
  | t :: ts => repr_logical t :: repr_logical_list ts
end

/-! ## Pipeline stage 1: function substitution (`Util.dfs_functions`) -/

/-- Result of flattening function arguments: the replaced argument list,
the definitional atoms, the fresh variable names, the next counter. -/
structure Flattened where
  args : List LTerm
  defs : List Logical
  fresh : List String
  ctr : Nat
deriving Repr

mutual
/-- Modelled from the spec: replacement of one predicate/function argument
for `Util.dfs_functions` — innermost function applications are replaced
first so nested functions get distinct fresh names; the fresh name for a
function `f` at counter `c` is `f ++ c` (as in the reference outputs
`f2, t3, p4` of `test_axiom_simple_function_replacement`), the numbers
being assigned outermost-first. -/
def flatten_term : LTerm → Nat → Flattened
  | .var v, c => ⟨[.var v], [], [], c⟩
  | .func f args, c =>
      let v := f ++ toString c
      let r := flatten_args args (c + 1)
      ⟨[.var v], r.defs ++ [.pred f (r.args ++ [.var v])], v :: r.fresh, r.ctr⟩

def flatten_args : List LTerm → Nat → Flattened
  | [], c => ⟨[], [], [], c⟩
  | t :: ts, c =>
      let r1 := flatten_term t c
      let r2 := flatten_args ts r1.ctr
      ⟨r1.args ++ r2.args, r1.defs ++ r2.defs, r1.fresh ++ r2.fresh, r2.ctr⟩
end

/-- Modelled from the spec: how `Util.dfs_functions` rewrites one predicate
whose arguments may contain functions.  In positive position
`P(…f(x)…)` becomes `∀v[(¬P(…v…) ∨ defs)]`; directly under a negation
`¬P(…f(x)…)` becomes `¬¬∀v[(P(…v…) ∨ defs)]` (reference outputs in
`test_axiom_simple_function_replacement`).  A predicate with no function
arguments is left unchanged (flattening leaves plain variables untouched,
so `r.args = args` in that branch). -/
def subst_pred (n : String) (args : List LTerm) (c : Nat) (negated : Bool) : Logical × Nat :=
  let r := flatten_args args c
  if r.fresh.isEmpty then
    ((if negated then .neg (.pred n r.args) else .pred n r.args), c)
  else
    let defsPart : Logical := match r.defs with
      | [d] => d
      | ds => .conj ds
    if negated then
      (.neg (.neg (.univ r.fresh (.disj [.pred n r.args, defsPart]))), r.ctr)
    else
      (.univ r.fresh (.disj [.neg (.pred n r.args), defsPart]), r.ctr)

mutual
/-- Modelled from the spec: `Util.dfs_functions` — recurse over the tree
replacing every nested function application appearing as a predicate
argument with a fresh variable, threading the process-wide fresh-name
counter. -/
def dfs_functions : Logical → Nat → Logical × Nat
  | .pred n args, c => subst_pred n args c false
  | .neg (.pred n args), c => subst_pred n args c true
  | .neg t, c =>
      let r := dfs_functions t c
      (.neg r.1, r.2)
  | .conj ts, c =>
      let r := dfs_functions_list ts c
      (.conj r.1, r.2)
  | .disj ts, c =>
      let r := dfs_functions_list ts c
      (.disj r.1, r.2)
  | .univ vs t, c =>
      let r := dfs_functions t c
      (.univ vs r.1, r.2)
  | .exist vs t, c =>
      let r := dfs_functions t c
      (.exist vs r.1, r.2)

def dfs_functions_list : List Logical → Nat → List Logical × Nat
  | [], c => ([], c)
  | t :: ts, c =>
      let r := dfs_functions t c
      let rs := dfs_functions_list ts r.2
      (r.1 :: rs.1, rs.2)
end

/-! ## Pipeline stage 2: variable standardization (`Util.dfs_standardize`) -/

/-- Modelled from the spec: `Util.generator()` — the fixed deterministic
reverse-alphabetic fresh-name sequence `z, y, x, …, a` (as in
`test_axiom_variable_standardize`); past the 26 letters it continues with
strings of repeated `z`s of increasing length, keeping every name
distinct. -/
def generator (n : Nat) : String :=
  if n < 26 then String.singleton (Char.ofNat (122 - n))
  else String.mk (List.replicate (n - 24) 'z')

mutual
/-- Renaming of a predicate/function argument under an environment of
variable substitutions (innermost binding first); a name not bound by any
enclosing quantifier (an ontology constant) is kept unchanged. -/
def rename_term (env : List (String × String)) : LTerm → LTerm
  | .var v => .var ((List.lookup v env).getD v)
  | .func n args => .func n (rename_term_list env args)

def rename_term_list (env : List (String × String)) : List LTerm → List LTerm
  | [] => []
  | t :: ts => rename_term env t :: rename_term_list env ts
end

mutual
/-- Modelled from the spec: `Util.dfs_standardize` — depth-first renaming
of every bound variable, the fresh names drawn from `generator` in
traversal order; each quantifier's variable list is renamed positionally
and the body is rewritten under the extended environment. -/
def dfs_standardize : Logical → List (String × String) → Nat → Logical × Nat
  | .pred n args, env, c => (.pred n (rename_term_list env args), c)
  | .neg t, env, c =>
      let r := dfs_standardize t env c
      (.neg r.1, r.2)
  | .conj ts, env, c =>
      let r := dfs_standardize_list ts env c
      (.conj r.1, r.2)
  | .disj ts, env, c =>
      let r := dfs_standardize_list ts env c
      (.disj r.1, r.2)
  | .univ vs t, env, c =>
      let names := (List.range vs.length).map (fun i => generator (c + i))
      let r := dfs_standardize t ((vs.zip names).reverse ++ env) (c + vs.length)
      (.univ names r.1, r.2)
  | .exist vs t, env, c =>
      let names := (List.range vs.length).map (fun i => generator (c + i))
      let r := dfs_standardize t ((vs.zip names).reverse ++ env) (c + vs.length)
      (.exist names r.1, r.2)

def dfs_standardize_list : List Logical → List (String × String) → Nat → List Logical × Nat
  | [], _, c => ([], c)
  | t :: ts, env, c =>
      let r := dfs_standardize t env c
      let rs := dfs_standardize_list ts env r.2
      (r.1 :: rs.1, rs.2)
end

/-! ## Pipeline stage 3: negation pushing (`Util.dfs_negate`) -/

mutual
/-- Modelled from the spec: `Util.dfs_negate` — rewrite to negation normal
form with De Morgan's laws and quantifier duality; after it, negation
appears only immediately above a predicate. -/
def dfs_negate : Logical → Logical
  | .pred n args => .pred n args
  | .neg t => negate_term t
  | .conj ts => .conj (dfs_negate_list ts)
  | .disj ts => .disj (dfs_negate_list ts)
  | .univ vs t => .univ vs (dfs_negate t)
  | .exist vs t => .exist vs (dfs_negate t)

/-- The negation normal form of the negation of the argument:
`¬(A∧B)=¬A∨¬B`, `¬(A∨B)=¬A∧¬B`, `¬∀x.A=∃x.¬A`, `¬∃x.A=∀x.¬A`, `¬¬A=A`. -/
def negate_term : Logical → Logical
  | .pred n args => .neg (.pred n args)
  | .neg t => dfs_negate t
  | .conj ts => .disj (negate_list ts)
  | .disj ts => .conj (negate_list ts)
  | .univ vs t => .exist vs (negate_term t)
  | .exist vs t => .univ vs (negate_term t)

def dfs_negate_list : List Logical → List Logical
  | [] => []
  | t :: ts => dfs_negate t :: dfs_negate_list ts

def negate_list : List Logical → List Logical
  | [] => []
  | t :: ts => negate_term t :: negate_list ts
end

/-! ## Pipeline stage 4: prenexing (`Axiom.create_prenex`) -/

mutual
/-- Modelled from the spec: the quantifier prefix accumulated by the
coalesce/rescope traversal of `Axiom.create_prenex` — every quantifier is
pulled to the front, preserving left-to-right relative order (`true` =
universal).  Negation is not descended into: after `push_negation` a
negation wraps only a predicate. -/
def extract_pfx : Logical → List (Bool × List String)
  | .univ vs t => (true, vs) :: extract_pfx t
  | .exist vs t => (false, vs) :: extract_pfx t
  | .conj ts => extract_pfx_list ts
  | .disj ts => extract_pfx_list ts
  | _ => []

def extract_pfx_list : List Logical → List (Bool × List String)
  | [] => []
  | t :: ts => extract_pfx t ++ extract_pfx_list ts
end

mutual
/-- Modelled from the spec: the quantifier-free matrix left behind once
all quantifiers have been rescoped outward. -/
def extract_matrix : Logical → Logical
  | .pred n args => .pred n args
  | .neg t => .neg t
  | .conj ts => .conj (extract_matrix_list ts)
  | .disj ts => .disj (extract_matrix_list ts)
  | .univ _ t => extract_matrix t
  | .exist _ t => extract_matrix t

def extract_matrix_list : List Logical → List Logical
  | [] => []
  | t :: ts => extract_matrix t :: extract_matrix_list ts
end

/-- Rebuild a tree from a quantifier prefix and a matrix. -/
def rebuild : List (Bool × List String) → Logical → Logical
  | [], m => m
  | (true, vs) :: p, m => .univ vs (rebuild p m)
  | (false, vs) :: p, m => .exist vs (rebuild p m)

/-- Modelled from the spec: the tree transformation of
`Axiom.create_prenex` — repeated coalescing/rescoping pulls every
quantifier to the front of the sentence. -/
def create_prenex_logical (t : Logical) : Logical :=
  rebuild (extract_pfx t) (extract_matrix t)

/-! ## Pipeline stage 5: CNF distribution (`Logical.to_onf`) -/

mutual
/-- Modelled from the spec: the clause decomposition performed by
`distribute()` — `A ∨ (B ∧ C) = (A ∨ B) ∧ (A ∨ C)` applied recursively
until no disjunction has a conjunction as an immediate argument.  A
clause is a list of literals; anything that is not a connective is kept
as an atom. -/
def clauses : Logical → List (List Logical)
  | .conj ts => clauses_conj ts
  | .disj ts => clauses_disj ts
  | t => [[t]]

def clauses_conj : List Logical → List (List Logical)
  | [] => []
  | t :: ts => clauses t ++ clauses_conj ts

def clauses_disj : List Logical → List (List Logical)
  | [] => [[]]
  | t :: ts =>
      let cs := clauses t
      let rest := clauses_disj ts
      (cs.map (fun c => rest.map (fun d => c ++ d))).flatten
end

/-- A clause of one literal stays a bare literal; otherwise a disjunction. -/
def mkClause : List Logical → Logical
  | [l] => l
  | ls => .disj ls

/-- A single clause stays bare; otherwise a conjunction of clauses. -/
def mkCNF : List (List Logical) → Logical
  | [c] => mkClause c
  | cs => .conj (cs.map mkClause)

/-- Modelled from the spec: `Logical.to_onf` — recurse through the
quantifier prefix and distribute disjunctions over conjunctions in the
matrix. -/
def to_onf : Logical → Logical
  | .univ vs t => .univ vs (to_onf t)
  | .exist vs t => .exist vs (to_onf t)
  | t => mkCNF (clauses t)

/-! ## The Axiom-level pipeline stages (`Axiom.py`) -/

/-- `Axiom.substitute_functions`: deep-copies the sentence, rewrites it
with `Util.dfs_functions`, and wraps the result in a brand-new `Axiom`
(fresh id from the axiom counter `ctr`); `fctr` is the process-wide
fresh-name counter used for the substituted functions. -/
def Axiom.substitute_functions (a : Axiom) (ctr fctr : Nat) : (Axiom × Nat) × Nat :=
  let r := dfs_functions a.sentence fctr
  (mkAxiom r.1 ctr, r.2)

/-- `Axiom.standardize_variables`: a fresh generator is created per call
(`Util.generator()`), so renaming always restarts at `z`. -/
def Axiom.standardize_variables (a : Axiom) (ctr : Nat) : Axiom × Nat :=
  mkAxiom (dfs_standardize a.sentence [] 0).1 ctr

/-- `Axiom.push_negation`. -/
def Axiom.push_negation (a : Axiom) (ctr : Nat) : Axiom × Nat :=
  mkAxiom (dfs_negate a.sentence) ctr

/-- `Axiom.create_prenex`. -/
def Axiom.create_prenex (a : Axiom) (ctr : Nat) : Axiom × Nat :=
  mkAxiom (create_prenex_logical a.sentence) ctr

/-- `Axiom.distribute_disjunctions`. -/
def Axiom.distribute_disjunctions (a : Axiom) (ctr : Nat) : Axiom × Nat :=
  mkAxiom (to_onf a.sentence) ctr

/-- `Axiom.ff_pcnf`: the five stages in their fixed order.  Returns the
final axiom, the axiom-id counter, and the fresh-name counter. -/
def Axiom.ff_pcnf (a : Axiom) (ctr fctr : Nat) : Axiom × Nat × Nat :=
  let r1 := a.substitute_functions ctr fctr
  let r2 := r1.1.1.standardize_variables r1.1.2
  let r3 := r2.1.push_negation r2.2
  let r4 := r3.1.create_prenex r3.2
  let r5 := r4.1.distribute_disjunctions r4.2
  (r5.1, r5.2, r1.2)

/-! ## Structural predicates on trees -/

/-- An argument that is a plain variable (no `Function` node). -/
def isVarTerm : LTerm → Bool
  | .var _ => true
  | .func _ _ => false

mutual
/-- No `Function` node anywhere in the tree. -/
def function_free : Logical → Bool
  | .pred _ args => args.all isVarTerm
  | .neg t => function_free t
  | .conj ts => function_free_list ts
  | .disj ts => function_free_list ts
  | .univ _ t => function_free t
  | .exist _ t => function_free t

def function_free_list : List Logical → Bool
  | [] => true
  | t :: ts => function_free t && function_free_list ts
end

mutual
/-- Negation normal form: every `Negation` wraps a bare predicate. -/
def isNNF : Logical → Bool
  | .pred _ _ => true
  | .neg (.pred _ _) => true
  | .neg _ => false
  | .conj ts => isNNF_list ts
  | .disj ts => isNNF_list ts
  | .univ _ t => isNNF t
  | .exist _ t => isNNF t

def isNNF_list : List Logical → Bool
  | [] => true
  | t :: ts => isNNF t && isNNF_list ts
end

mutual
/-- No quantifier anywhere in the tree. -/
def quant_free : Logical → Bool
  | .pred _ _ => true
  | .neg t => quant_free t
  | .conj ts => quant_free_list ts
  | .disj ts => quant_free_list ts
  | .univ _ _ => false
  | .exist _ _ => false

def quant_free_list : List Logical → Bool
  | [] => true
  | t :: ts => quant_free t && quant_free_list ts
end

/-- A possibly negated atomic predicate. -/
def isLiteral : Logical → Bool
  | .pred _ _ => true
  | .neg (.pred _ _) => true
  | _ => false

/-- A literal, or a disjunction of literals. -/
def isClause (t : Logical) : Bool :=
  match t with
  | .disj ts => ts.all isLiteral
  | t => isLiteral t

/-- A clause, or a conjunction of clauses. -/
def isCNFMatrix (t : Logical) : Bool :=
  match t with
  | .conj ts => ts.all isClause
  | t => isClause t

/-- All quantifiers outermost (a quantifier spine) with a quantifier-free
matrix that is a conjunction of disjunctions of possibly negated atomic
predicates. -/
def isPrenexCNF : Logical → Bool
  | .univ _ t => isPrenexCNF t
  | .exist _ t => isPrenexCNF t
  | t => isCNFMatrix t

mutual
/-- The variable lists of all quantifiers, in depth-first pre-order. -/
def boundLists : Logical → List (List String)
  | .pred _ _ => []
  | .neg t => boundLists t
  | .conj ts => boundLists_list ts
  | .disj ts => boundLists_list ts
  | .univ vs t => vs :: boundLists t
  | .exist vs t => vs :: boundLists t

def boundLists_list : List Logical → List (List String)
  | [] => []
  | t :: ts => boundLists t ++ boundLists_list ts
end

mutual
/-- Total number of bound-variable slots in the tree. -/
def countB : Logical → Nat
  | .pred _ _ => 0
  | .neg t => countB t
  | .conj ts => countB_list ts
  | .disj ts => countB_list ts
  | .univ vs t => vs.length + countB t
  | .exist vs t => vs.length + countB t

def countB_list : List Logical → Nat
  | [] => 0
  | t :: ts => countB t + countB_list ts
end

/-! ## Parser boundary (`parsing/Parser.py`) -/

/-- `get_line_number` of `Parser.py`: `string[:pos].count('\n') + 1` —
the 1-based line number of a position. -/
def get_line_number (s : String) (pos : Nat) : Nat :=
  ((s.toList.take pos).count '\n') + 1

/-- The line number actually printed by `p_error` of `Parser.py`:
`string_up_to_error.count("\n")` where
`string_up_to_error = p.lexer.lexdata[:error_pos]` — the raw newline
count, without the `+ 1` of `get_line_number`. -/
def reported_line_number (s : String) (pos : Nat) : Nat :=
  (s.toList.take pos).count '\n'

/-- One element of the list returned by `yacc.parse`: an axiom
(`Logical.Logical`), an import URI (`str`), or `None` (from a
`cl-comment`). -/
inductive ParsedObject where
  | axiomObj : Logical → ParsedObject
  | importUri : String → ParsedObject
  | noneObj : ParsedObject
deriving Repr

/-- The ontology assembled by `parse_file`: the parsed axioms and import
URIs in order. -/
structure Ontology where
  axioms : List Logical
  imports : List String
deriving Repr

/-- `parse_file` of `Parser.py`, from the point where the file has been
read into `buff`:  an empty buffer returns `None` before the
lexer/parser are even constructed (`if not buff: return None`); otherwise
the yacc parse runs (its behavior is the `runYacc` collaborator — a
raised `TypeError` grammar error is `Except.error` and propagates, so no
partially built ontology is returned), and on success the parsed objects
are folded into the ontology by their type. -/
def parse_file (buff : String)
    (runYacc : String → Except String (List ParsedObject)) :
    Except String (Option Ontology) :=
  if buff = "" then .ok none
  else
    match runYacc buff with
    | .error e => .error e
    | .ok objs =>
        .ok (some
          { axioms := objs.filterMap (fun o => match o with
              | .axiomObj l => some l
              | _ => none),
            imports := objs.filterMap (fun o => match o with
              | .importUri s => some s
              | _ => none) })

/-! ## Reasoner output classification (`Reasoner.py`) -/

/-- The closed status set of `Ontology` consumed by
`Reasoner.terminatedSuccessfully`. -/
inductive RStatus where
  | PROOF
  | INCONSISTENT
  | COUNTEREXAMPLE
  | CONSISTENT
  | UNKNOWN
  | ERROR
deriving Repr, DecidableEq

/-- Python's `in` operator on strings: substring containment. -/
def pyIn (sub s : String) : Bool :=
  s.toList.tails.any (fun t => sub.toList.isPrefixOf t)

/-- Python's `str.startswith`. -/
def py_startswith (s pre : String) : Bool :=
  pre.toList.isPrefixOf s.toList

/-- `vampire_status` of `Reasoner.terminatedSuccessfully`: the keyword
chain applied to one `Termination reason:` line, `Refutation not found`
checked first. -/
def vampire_status (line : String) : RStatus :=
  if pyIn "Refutation not found" line then .UNKNOWN
  else if pyIn "Refutation" line then .PROOF
  else if pyIn "Unsatisfiable" line then .INCONSISTENT
  else if pyIn "CounterSatisfiable" line then .COUNTEREXAMPLE
  else if pyIn "Satisfiable" line then .CONSISTENT
  else .UNKNOWN

/-- `success_vampire` of `Reasoner.terminatedSuccessfully`: the value of
`self.output` after inspecting the Vampire output lines — the last line
starting `Termination reason:` is classified; when that classification is
UNKNOWN, a line starting `Parser exception:` forces ERROR; with no
`Termination reason:` line at all the output is UNKNOWN. -/
def success_vampire (lines : List String) : RStatus :=
  let output_lines := lines.filter (fun x => py_startswith x "Termination reason:")
  match output_lines.getLast? with
  | none => .UNKNOWN
  | some last =>
      let st := vampire_status last
      if st = .UNKNOWN then
        if (lines.filter (fun x => py_startswith x "Parser exception:")).length > 0 then .ERROR
        else .UNKNOWN
      else st

/-- The success mapping dict of `Reasoner.terminatedSuccessfully`. -/
def status_success (s : RStatus) : Bool :=
  match s with
  | .PROOF => true
  | .COUNTEREXAMPLE => true
  | .CONSISTENT => true
  | .INCONSISTENT => true
  | .ERROR => false
  | .UNKNOWN => false

/-- The amended C9 classifier, written from the amended claim's words: a
priority list of keywords — `Refutation not found` ↦ UNKNOWN first, then
`Refutation` ↦ PROOF, `Unsatisfiable` ↦ INCONSISTENT, `CounterSatisfiable`
↦ COUNTEREXAMPLE, `Satisfiable` ↦ CONSISTENT — applied to the last
`Termination reason:` line, defaulting to UNKNOWN; a `Parser exception:`
line forces ERROR only when a `Termination reason:` line exists and its
classification is UNKNOWN. -/
def claimed_vampire_classification (lines : List String) : RStatus :=
  let keywordMap : List (String × RStatus) :=
    [("Refutation not found", .UNKNOWN), ("Refutation", .PROOF),
     ("Unsatisfiable", .INCONSISTENT), ("CounterSatisfiable", .COUNTEREXAMPLE),
     ("Satisfiable", .CONSISTENT)]
  match (lines.filter (fun x => py_startswith x "Termination reason:")).getLast? with
  | none => .UNKNOWN
  | some last =>
      let st := ((keywordMap.find? (fun kv => pyIn kv.1 last)).map Prod.snd).getD .UNKNOWN
      if st = .UNKNOWN ∧ lines.any (fun x => py_startswith x "Parser exception:") then .ERROR
      else st

/-! ## Helper lemmas -/

theorem string_append_assoc (a b c : String) : a ++ b ++ c = a ++ (b ++ c) := by
  apply String.ext
  simp [List.append_assoc]

theorem intercalate_pair (s a b : String) :
    String.intercalate s [a, b] = a ++ s ++ b := rfl

/-! ## C6: double negation collapses at render time -/

/-- C6: both serializers render `Negation(Negation(T))` exactly as they
render `T`, for every term `T` — the collapse is a presentation-layer
rule of `to_tptp`/`to_ladr`, not a tree rewrite. -/
theorem C6_double_negation_render_only (t : Logical) (i : Nat) :
    tptp_logical (.neg (.neg t)) = tptp_logical t ∧
    ladr_logical (.neg (.neg t)) = ladr_logical t ∧
    Axiom.to_tptp ⟨.neg (.neg t), i⟩ = Axiom.to_tptp ⟨t, i⟩ ∧
    Axiom.to_ladr ⟨.neg (.neg t), i⟩ = Axiom.to_ladr ⟨t, i⟩ :=
  ⟨rfl, rfl, rfl, rfl⟩

/-! ## C10: equality is prefix in LADR, infix in TPTP -/

/-- C10: a two-argument predicate named `=` renders prefix as `=(a,b)` in
LADR (no infix special case in `to_ladr`), while `to_tptp` renders the
same node infix. -/
theorem C10_ladr_equality_prefix (t0 t1 : LTerm) :
    ladr_logical (.pred "=" [t0, t1]) = "=(" ++ ladr_term t0 ++ "," ++ ladr_term t1 ++ ")" ∧
    tptp_logical (.pred "=" [t0, t1]) = tptp_term t0 ++ "=" ++ tptp_term t1 := by
  constructor
  · show "=" ++ "(" ++ String.intercalate "," [ladr_term t0, ladr_term t1] ++ ")" = _
    rw [intercalate_pair]
    apply String.ext
    simp
  · rfl

/-! ## C5: TPTP rendering format -/

/-- C5 counterexample: the claim renders a quantifier as a single
comma-separated bracket `! [V,...]`, but for the two-variable axiom
`∀(x,y) p(x)` the serialized output contains no `[X,Y]` at all — it
chains one `! [V] : ` prefix per variable. -/
theorem C5_counterexample_quantifier_bracket :
    Axiom.to_tptp ⟨.univ ["x", "y"] (.pred "p" [.var "x"]), 1⟩
      = "fof(axiom10, axiom, (! [X] : ! [Y] :  (p(X))))." ∧
    ¬ ("[X,Y]".toList <:+: (Axiom.to_tptp ⟨.univ ["x", "y"] (.pred "p" [.var "x"]), 1⟩).toList) := by
  constructor
  · rfl
  · decide

/-- C5 as amended: `to_tptp` yields `fof(axiom<id*10>, axiom, <body>).`;
variables upper-cased, predicate/function names lower-cased, a
two-argument `=` predicate infix, a negated bare predicate wrapped as
`~(...)`, conjunction/disjunction as parenthesized ` & `/` | ` infix
lists, and a quantifier as a chain of per-variable `! [V] : ` /
`? [V] : ` prefixes (one bracket per variable, not one comma-separated
bracket). -/
theorem C5_tptp_format (a : Axiom) (n : String) (args : List LTerm)
    (t0 t1 : LTerm) (ts : List Logical) (vs : List String) (b : Logical)
    (hn : n ≠ "=") :
    Axiom.to_tptp a
      = "fof(axiom" ++ toString (a.id * 10) ++ ", axiom, " ++ tptp_logical a.sentence ++ ")." ∧
    tptp_term (.var n) = str_upper n ∧
    tptp_term (.func n args) = str_lower n ++ "(" ++ String.intercalate "," (tptp_term_list args) ++ ")" ∧
    tptp_logical (.pred n args) = str_lower n ++ "(" ++ String.intercalate "," (tptp_term_list args) ++ ")" ∧
    tptp_logical (.pred "=" [t0, t1]) = tptp_term t0 ++ "=" ++ tptp_term t1 ∧
    tptp_logical (.neg (.pred n args)) = "~(" ++ tptp_logical (.pred n args) ++ ")" ∧
    tptp_logical (.conj ts) = "(" ++ String.intercalate " & " (tptp_logical_list ts) ++ ")" ∧
    tptp_logical (.disj ts) = "(" ++ String.intercalate " | " (tptp_logical_list ts) ++ ")" ∧
    tptp_logical (.univ vs b)
      = "(" ++ String.join (vs.map (fun v => "! [" ++ str_upper v ++ "] : ")) ++ " (" ++ tptp_logical b ++ "))" ∧
    tptp_logical (.exist vs b)
      = "(" ++ String.join (vs.map (fun v => "? [" ++ str_upper v ++ "] : ")) ++ " (" ++ tptp_logical b ++ "))" := by
  refine ⟨rfl, rfl, rfl, ?_, rfl, rfl, rfl, rfl, rfl, rfl⟩
  have he : is_equality n = false := by
    simp [is_equality, hn]
  simp [tptp_logical, he]

/-- Witness for `C5_tptp_format` at a concrete non-equality predicate. -/
theorem C5_tptp_format_witness :
    ("q" : String) ≠ "=" ∧
    tptp_logical (.pred "q" [.var "x"])
      = str_lower "q" ++ "(" ++ String.intercalate "," (tptp_term_list [.var "x"]) ++ ")" :=
  ⟨by decide,
   (C5_tptp_format ⟨.pred "q" [], 0⟩ "q" [.var "x"] (.var "x") (.var "x") [] [] (.pred "q" [])
      (by decide)).2.2.2.1⟩

/-! ## C7: the p_error diagnostic line number -/

/-- C7: the code is wrong where the claim (and `get_line_number`, which
`p_error` never calls) is 1-based — for the malformed input `"(not)"`
with the offending token `)` at position 4 (first line), `p_error`
prints the raw newline count `0`, while the 1-based line number is `1`. -/
theorem C7_line_number_off_by_one :
    reported_line_number "(not)" 4 = 0 ∧
    get_line_number "(not)" 4 = 1 ∧
    reported_line_number "(not)" 4 ≠ get_line_number "(not)" 4 := by
  refine ⟨by decide, by decide, by decide⟩

/-! ## C8: empty input is a no-op -/

/-- C8: for every empty read buffer, `parse_file` returns no ontology and
raises no error (the `if not buff: return None` early return), whatever
the parser collaborator would do. -/
theorem C8_empty_input_no_op
    (runYacc : String → Except String (List ParsedObject)) (buff : String)
    (h : buff = "") :
    parse_file buff runYacc = .ok none := by
  subst h
  rfl

/-- Witness for `C8_empty_input_no_op` at the empty buffer. -/
theorem C8_empty_input_no_op_witness :
    ("" : String) = "" ∧
    parse_file "" (fun _ => .ok []) = .ok none :=
  ⟨rfl, C8_empty_input_no_op (fun _ => .ok []) "" rfl⟩

/-! ## C9: the Vampire output classifier -/

set_option maxRecDepth 40000 in
/-- C9 counterexample: the line `Termination reason: Refutation not found`
contains the keyword `Refutation`, so the claim's mapping says PROOF, but
the classifier returns UNKNOWN — `Refutation not found` is checked before
`Refutation`. -/
theorem C9_counterexample_refutation_not_found :
    success_vampire ["Termination reason: Refutation not found"] = .UNKNOWN ∧
    pyIn "Refutation" "Termination reason: Refutation not found" = true := by
  constructor
  · rfl
  · rfl

/-- C9 as amended: the classifier of `success_vampire` coincides, on every
output file, with the keyword-priority-list classifier written from the
amended claim (`Refutation not found` ↦ UNKNOWN checked first, then
`Refutation` ↦ PROOF, `Unsatisfiable` ↦ INCONSISTENT, `CounterSatisfiable`
↦ COUNTEREXAMPLE, `Satisfiable` ↦ CONSISTENT, else UNKNOWN, with the
`Parser exception:` ERROR override only when a `Termination reason:` line
exists and classifies as UNKNOWN). -/
theorem C9_vampire_classification (lines : List String) :
    claimed_vampire_classification lines = success_vampire lines := by
  have hany : (0 < (lines.filter (fun x => py_startswith x "Parser exception:")).length)
      ↔ (lines.any (fun x => py_startswith x "Parser exception:") = true) := by
    simp [List.length_pos_iff_exists_mem, List.mem_filter, List.any_eq_true]
  unfold claimed_vampire_classification success_vampire
  cases h : (lines.filter (fun x => py_startswith x "Termination reason:")).getLast? with
  | none => simp [h]
  | some last =>
      simp only [h]
      have hkw : (((([("Refutation not found", RStatus.UNKNOWN), ("Refutation", RStatus.PROOF),
            ("Unsatisfiable", RStatus.INCONSISTENT), ("CounterSatisfiable", RStatus.COUNTEREXAMPLE),
            ("Satisfiable", RStatus.CONSISTENT)] : List (String × RStatus)).find?
              (fun kv => pyIn kv.1 last)).map Prod.snd).getD .UNKNOWN)
          = vampire_status last := by
        unfold vampire_status
        by_cases h1 : pyIn "Refutation not found" last <;>
          by_cases h2 : pyIn "Refutation" last <;>
            by_cases h3 : pyIn "Unsatisfiable" last <;>
              by_cases h4 : pyIn "CounterSatisfiable" last <;>
                by_cases h5 : pyIn "Satisfiable" last <;>
                  simp [List.find?, h1, h2, h3, h4, h5]
      simp only [hkw]
      by_cases hu : vampire_status last = RStatus.UNKNOWN <;>
        by_cases hp : lines.any (fun x => py_startswith x "Parser exception:") = true <;>
          simp [hu, hp, hany, gt_iff_lt]

/-! ## C3: every stage builds a brand-new axiom with a fresh, larger id -/

/-- C3: each of the five pipeline stages constructs a brand-new `Axiom`
whose id is drawn fresh from the process-wide counter — strictly greater
than the input axiom's id whenever the counter invariant `a.id < ctr`
holds (it does: the counter only ever increases after an axiom is built)
— and advances the counter by exactly one.  The input axiom is untouched:
in this embedding every stage is a pure function of `a`, mirroring the
deep-copy-then-rebuild discipline of the source. -/
theorem C3_stages_fresh_ids (a : Axiom) (ctr fctr : Nat) (h : a.id < ctr) :
    ((a.substitute_functions ctr fctr).1.1.id = ctr ∧
      a.id < (a.substitute_functions ctr fctr).1.1.id ∧
      (a.substitute_functions ctr fctr).1.2 = ctr + 1) ∧
    ((a.standardize_variables ctr).1.id = ctr ∧
      a.id < (a.standardize_variables ctr).1.id ∧
      (a.standardize_variables ctr).2 = ctr + 1) ∧
    ((a.push_negation ctr).1.id = ctr ∧
      a.id < (a.push_negation ctr).1.id ∧
      (a.push_negation ctr).2 = ctr + 1) ∧
    ((a.create_prenex ctr).1.id = ctr ∧
      a.id < (a.create_prenex ctr).1.id ∧
      (a.create_prenex ctr).2 = ctr + 1) ∧
    ((a.distribute_disjunctions ctr).1.id = ctr ∧
      a.id < (a.distribute_disjunctions ctr).1.id ∧
      (a.distribute_disjunctions ctr).2 = ctr + 1) :=
  ⟨⟨rfl, h, rfl⟩, ⟨rfl, h, rfl⟩, ⟨rfl, h, rfl⟩, ⟨rfl, h, rfl⟩, ⟨rfl, h, rfl⟩⟩

/-- Witness for `C3_stages_fresh_ids` at a concrete axiom and counter. -/
theorem C3_stages_fresh_ids_witness :
    (Axiom.mk (.pred "A" [.var "x"]) 1).id < 2 ∧
    ((Axiom.mk (.pred "A" [.var "x"]) 1).push_negation 2).1.id = 2 :=
  ⟨by decide,
   (C3_stages_fresh_ids (Axiom.mk (.pred "A" [.var "x"]) 1) 2 0 (by decide)).2.2.1.1⟩

/-! ## C4: variable standardization produces distinct fresh names -/

theorem generator_small_inj :
    ∀ m < 26, ∀ n < 26,
      String.singleton (Char.ofNat (122 - m)) = String.singleton (Char.ofNat (122 - n)) → m = n := by
  decide

theorem generator_injective : Function.Injective generator := by
  intro m n h
  unfold generator at h
  by_cases hm : m < 26 <;> by_cases hn : n < 26 <;> simp only [hm, hn, if_true, if_false] at h
  · exact generator_small_inj m hm n hn h
  · have hd := congrArg String.data h
    simp only [String.singleton] at hd
    have hl := congrArg List.length hd
    simp at hl
    omega
  · have hd := congrArg String.data h
    simp only [String.singleton] at hd
    have hl := congrArg List.length hd
    simp at hl
    omega
  · have hd := congrArg String.data h
    have hl := congrArg List.length hd
    simp at hl
    omega

theorem generator_shift (c a : Nat) :
    ((fun i => generator (c + i)) ∘ (fun x : Nat => a + x)) = (fun i => generator (c + a + i)) := by
  funext i
  simp only [Function.comp_apply]
  exact congrArg generator (by omega)

theorem dfs_standardize_bound_core :
    ∀ t : Logical, ∀ env c,
      ((boundLists (dfs_standardize t env c).1).flatten
        = (List.range (countB t)).map (fun i => generator (c + i)))
      ∧ (dfs_standardize t env c).2 = c + countB t := by
  have hlist : ∀ ts : List Logical,
      (∀ t ∈ ts, ∀ env c,
        ((boundLists (dfs_standardize t env c).1).flatten
          = (List.range (countB t)).map (fun i => generator (c + i)))
        ∧ (dfs_standardize t env c).2 = c + countB t) →
      ∀ env c,
        ((boundLists_list (dfs_standardize_list ts env c).1).flatten
          = (List.range (countB_list ts)).map (fun i => generator (c + i)))
        ∧ (dfs_standardize_list ts env c).2 = c + countB_list ts := by
    intro ts
    induction ts with
    | nil => intro _ env c; simp [dfs_standardize_list, boundLists_list, countB_list]
    | cons t ts ih =>
        intro hmem env c
        obtain ⟨ht1, ht2⟩ := hmem t (by simp) env c
        obtain ⟨hts1, hts2⟩ :=
          (ih (fun u hu env' c' => hmem u (by simp [hu]) env' c')) env
            (dfs_standardize t env c).2
        rw [ht2] at hts1 hts2
        simp only [dfs_standardize_list, boundLists_list, countB_list]
        constructor
        · simp only [List.flatten_append, ht1, ht2, hts1, List.range_add,
            List.map_append, List.map_map, generator_shift]
        · simp only [ht2, hts2]
          omega
  intro t
  induction t using Logical.myInduction with
  | hpred n args => intro env c; simp [dfs_standardize, boundLists, countB]
  | hneg t ih =>
      intro env c
      simpa only [dfs_standardize, boundLists, countB] using ih env c
  | hconj ts hmem =>
      intro env c
      simpa only [dfs_standardize, boundLists, countB] using hlist ts hmem env c
  | hdisj ts hmem =>
      intro env c
      simpa only [dfs_standardize, boundLists, countB] using hlist ts hmem env c
  | huniv vs t ih =>
      intro env c
      obtain ⟨ih1, ih2⟩ := ih ((vs.zip ((List.range vs.length).map (fun i => generator (c + i)))).reverse ++ env) (c + vs.length)
      simp only [dfs_standardize, boundLists, countB]
      constructor
      · simp only [List.flatten_cons, ih1, List.range_add, List.map_append, List.map_map,
          generator_shift]
      · simp only [ih2]
        omega
  | hexist vs t ih =>
      intro env c
      obtain ⟨ih1, ih2⟩ := ih ((vs.zip ((List.range vs.length).map (fun i => generator (c + i)))).reverse ++ env) (c + vs.length)
      simp only [dfs_standardize, boundLists, countB]
      constructor
      · simp only [List.flatten_cons, ih1, List.range_add, List.map_append, List.map_map,
          generator_shift]
      · simp only [ih2]
        omega

/-- C4: `standardize_variables` yields an axiom whose quantifier variable
lists are pairwise disjoint with pairwise-distinct names (the flattened
list of all bound names has no duplicate), those names being drawn in
depth-first traversal order from the fixed reverse-alphabetic `generator`
sequence (`z, y, x, …`); re-applying the stage preserves distinctness. -/
theorem C4_standardize_distinct (a : Axiom) (ctr ctr' : Nat) :
    ((boundLists ((a.standardize_variables ctr).1.sentence)).flatten).Nodup ∧
    (boundLists ((a.standardize_variables ctr).1.sentence)).flatten
      = (List.range (countB a.sentence)).map generator ∧
    ((boundLists ((((a.standardize_variables ctr).1).standardize_variables ctr').1.sentence)).flatten).Nodup := by
  have key : ∀ (s : Logical), (boundLists (dfs_standardize s [] 0).1).flatten
      = (List.range (countB s)).map generator := by
    intro s
    have h := (dfs_standardize_bound_core s [] 0).1
    simpa using h
  have nodup : ∀ (s : Logical), ((boundLists (dfs_standardize s [] 0).1).flatten).Nodup := by
    intro s
    rw [key]
    exact (List.nodup_range _).map generator_injective
  exact ⟨nodup _, key _, nodup _⟩

/-! ## C1: FF-PCNF closure — supporting lemmas -/

theorem function_free_list_eq (ts : List Logical) :
    function_free_list ts = ts.all function_free := by
  induction ts with
  | nil => rfl
  | cons t ts ih => simp [function_free_list, ih]

theorem isNNF_list_eq (ts : List Logical) :
    isNNF_list ts = ts.all isNNF := by
  induction ts with
  | nil => rfl
  | cons t ts ih => simp [isNNF_list, ih]

theorem quant_free_list_eq (ts : List Logical) :
    quant_free_list ts = ts.all quant_free := by
  induction ts with
  | nil => rfl
  | cons t ts ih => simp [quant_free_list, ih]

theorem dfs_negate_list_eq (ts : List Logical) :
    dfs_negate_list ts = ts.map dfs_negate := by
  induction ts with
  | nil => rfl
  | cons t ts ih => simp [dfs_negate_list, ih]

theorem negate_list_eq (ts : List Logical) :
    negate_list ts = ts.map negate_term := by
  induction ts with
  | nil => rfl
  | cons t ts ih => simp [negate_list, ih]

theorem extract_matrix_list_eq (ts : List Logical) :
    extract_matrix_list ts = ts.map extract_matrix := by
  induction ts with
  | nil => rfl
  | cons t ts ih => simp [extract_matrix_list, ih]

theorem rename_term_list_eq (env : List (String × String)) (ts : List LTerm) :
    rename_term_list env ts = ts.map (rename_term env) := by
  induction ts with
  | nil => rfl
  | cons t ts ih => simp [rename_term_list, ih]

theorem clauses_conj_eq (ts : List Logical) :
    clauses_conj ts = (ts.map clauses).flatten := by
  induction ts with
  | nil => rfl
  | cons t ts ih => simp [clauses_conj, ih]

/-- Flattening a function argument yields only plain variables, and all
the definitional atoms it produces are function-free. -/
theorem flatten_term_spec :
    ∀ (t : LTerm) (c : Nat),
      (flatten_term t c).args.all isVarTerm = true ∧
      (∀ d ∈ (flatten_term t c).defs, function_free d = true) := by
  have hlist : ∀ (args : List LTerm),
      (∀ t ∈ args, ∀ c,
        (flatten_term t c).args.all isVarTerm = true ∧
        (∀ d ∈ (flatten_term t c).defs, function_free d = true)) →
      ∀ c,
        (flatten_args args c).args.all isVarTerm = true ∧
        (∀ d ∈ (flatten_args args c).defs, function_free d = true) := by
    intro args
    induction args with
    | nil => intro _ c; simp [flatten_args]
    | cons t ts ih =>
        intro hmem c
        obtain ⟨ht1, ht2⟩ := hmem t (by simp) c
        obtain ⟨hts1, hts2⟩ :=
          ih (fun u hu c' => hmem u (by simp [hu]) c') (flatten_term t c).ctr
        constructor
        · simp [flatten_args, List.all_append, ht1, hts1]
        · intro d hd
          simp only [flatten_args, List.mem_append] at hd
          rcases hd with hd | hd
          · exact ht2 d hd
          · exact hts2 d hd
  intro t
  induction t using LTerm.myInduction with
  | hvar v => intro c; simp [flatten_term, isVarTerm]
  | hfunc n args hmem =>
      intro c
      obtain ⟨h1, h2⟩ := hlist args hmem (c + 1)
      constructor
      · simp [flatten_term, isVarTerm]
      · intro d hd
        simp only [flatten_term, List.mem_append, List.mem_singleton] at hd
        rcases hd with hd | hd
        · exact h2 d hd
        · subst hd
          simp [function_free, List.all_append, h1, isVarTerm]

/-- Same as `flatten_term_spec`, for an argument list. -/
theorem flatten_args_spec :
    ∀ (args : List LTerm) (c : Nat),
      (flatten_args args c).args.all isVarTerm = true ∧
      (∀ d ∈ (flatten_args args c).defs, function_free d = true) := by
  intro args
  induction args with
  | nil => intro c; simp [flatten_args]
  | cons t ts ih =>
      intro c
      obtain ⟨ht1, ht2⟩ := flatten_term_spec t c
      obtain ⟨hts1, hts2⟩ := ih (flatten_term t c).ctr
      constructor
      · simp [flatten_args, List.all_append, ht1, hts1]
      · intro d hd
        simp only [flatten_args, List.mem_append] at hd
        rcases hd with hd | hd
        · exact ht2 d hd
        · exact hts2 d hd

/-- The predicate-rewriting step of function substitution always yields a
function-free tree. -/
theorem subst_pred_ff (n : String) (args : List LTerm) (c : Nat) (negated : Bool) :
    function_free (subst_pred n args c negated).1 = true := by
  obtain ⟨h1, h2⟩ := flatten_args_spec args c
  unfold subst_pred
  by_cases hf : (flatten_args args c).fresh.isEmpty
  · cases negated <;> simp [hf, function_free, h1]
  · have hdef : function_free
        (match (flatten_args args c).defs with
          | [d] => d
          | ds => Logical.conj ds) = true := by
      cases hds : (flatten_args args c).defs with
      | nil => simp [function_free, function_free_list]
      | cons d ds =>
          cases ds with
          | nil => exact h2 d (by simp [hds])
          | cons d' ds' =>
              simp only [function_free, function_free_list_eq, List.all_eq_true]
              intro x hx
              exact h2 x (by simp [hds] at hx ⊢; tauto)
    cases negated <;>
      simp [hf, function_free, function_free_list_eq, h1, hdef]

/-- `dfs_functions` eliminates every `Function` node. -/
theorem dfs_functions_ff : ∀ (t : Logical) (c : Nat),
    function_free (dfs_functions t c).1 = true := by
  have hlist : ∀ (ts : List Logical),
      (∀ t ∈ ts, ∀ c, function_free (dfs_functions t c).1 = true) →
      ∀ c, function_free_list (dfs_functions_list ts c).1 = true := by
    intro ts
    induction ts with
    | nil => intro _ c; simp [dfs_functions_list, function_free_list]
    | cons t ts ih =>
        intro hmem c
        simp only [dfs_functions_list, function_free_list, Bool.and_eq_true]
        exact ⟨hmem t (by simp) c,
          ih (fun u hu c' => hmem u (by simp [hu]) c') (dfs_functions t c).2⟩
  intro t
  induction t using Logical.myInduction with
  | hpred n args => intro c; exact subst_pred_ff n args c false
  | hneg t ih =>
      intro c
      cases t with
      | pred n args => exact subst_pred_ff n args c true
      | neg u => simpa [dfs_functions, function_free] using ih c
      | conj ts => simpa [dfs_functions, function_free] using ih c
      | disj ts => simpa [dfs_functions, function_free] using ih c
      | univ vs u => simpa [dfs_functions, function_free] using ih c
      | exist vs u => simpa [dfs_functions, function_free] using ih c
  | hconj ts hmem =>
      intro c
      simpa [dfs_functions, function_free] using hlist ts hmem c
  | hdisj ts hmem =>
      intro c
      simpa [dfs_functions, function_free] using hlist ts hmem c
  | huniv vs t ih =>
      intro c
      simpa [dfs_functions, function_free] using ih c
  | hexist vs t ih =>
      intro c
      simpa [dfs_functions, function_free] using ih c

/-- Renaming never introduces a `Function` node. -/
theorem rename_term_keeps_var (env : List (String × String)) (t : LTerm)
    (h : isVarTerm t = true) : isVarTerm (rename_term env t) = true := by
  cases t with
  | var v => simp [rename_term, isVarTerm]
  | func n args => simp [isVarTerm] at h

/-- `dfs_standardize` preserves function-freeness. -/
theorem dfs_standardize_ff : ∀ (t : Logical) (env : List (String × String)) (c : Nat),
    function_free t = true → function_free (dfs_standardize t env c).1 = true := by
  have hlist : ∀ (ts : List Logical),
      (∀ t ∈ ts, ∀ env c, function_free t = true →
        function_free (dfs_standardize t env c).1 = true) →
      ∀ env c, function_free_list ts = true →
        function_free_list (dfs_standardize_list ts env c).1 = true := by
    intro ts
    induction ts with
    | nil => intro _ env c _; simp [dfs_standardize_list, function_free_list]
    | cons t ts ih =>
        intro hmem env c h
        simp only [function_free_list, Bool.and_eq_true] at h
        simp only [dfs_standardize_list, function_free_list, Bool.and_eq_true]
        exact ⟨hmem t (by simp) env c h.1,
          ih (fun u hu env' c' => hmem u (by simp [hu]) env' c') env
            (dfs_standardize t env c).2 h.2⟩
  intro t
  induction t using Logical.myInduction with
  | hpred n args =>
      intro env c h
      simp only [function_free, List.all_eq_true] at h
      simp only [dfs_standardize, function_free, rename_term_list_eq, List.all_eq_true]
      intro x hx
      obtain ⟨y, hy, rfl⟩ := List.mem_map.mp hx
      exact rename_term_keeps_var env y (h y hy)
  | hneg t ih =>
      intro env c h
      simp only [function_free] at h
      simpa [dfs_standardize, function_free] using ih env c h
  | hconj ts hmem =>
      intro env c h
      simp only [function_free] at h
      simpa [dfs_standardize, function_free] using hlist ts hmem env c h
  | hdisj ts hmem =>
      intro env c h
      simp only [function_free] at h
      simpa [dfs_standardize, function_free] using hlist ts hmem env c h
  | huniv vs t ih =>
      intro env c h
      simp only [function_free] at h
      simpa [dfs_standardize, function_free] using ih _ _ h
  | hexist vs t ih =>
      intro env c h
      simp only [function_free] at h
      simpa [dfs_standardize, function_free] using ih _ _ h

/-- Negation pushing preserves function-freeness. -/
theorem dfs_negate_ff : ∀ (t : Logical), function_free t = true →
    function_free (dfs_negate t) = true ∧ function_free (negate_term t) = true := by
  intro t
  induction t using Logical.myInduction with
  | hpred n args =>
      intro h
      exact ⟨h, by simpa [negate_term, function_free] using h⟩
  | hneg t ih =>
      intro h
      simp only [function_free] at h
      exact ⟨(ih h).2, (ih h).1⟩
  | hconj ts hmem =>
      intro h
      simp only [function_free, function_free_list_eq, List.all_eq_true] at h
      constructor
      · simp only [dfs_negate, function_free, dfs_negate_list_eq, function_free_list_eq,
          List.all_eq_true]
        intro x hx
        obtain ⟨y, hy, rfl⟩ := List.mem_map.mp hx
        exact (hmem y hy (h y hy)).1
      · simp only [negate_term, function_free, negate_list_eq, function_free_list_eq,
          List.all_eq_true]
        intro x hx
        obtain ⟨y, hy, rfl⟩ := List.mem_map.mp hx
        exact (hmem y hy (h y hy)).2
  | hdisj ts hmem =>
      intro h
      simp only [function_free, function_free_list_eq, List.all_eq_true] at h
      constructor
      · simp only [dfs_negate, function_free, dfs_negate_list_eq, function_free_list_eq,
          List.all_eq_true]
        intro x hx
        obtain ⟨y, hy, rfl⟩ := List.mem_map.mp hx
        exact (hmem y hy (h y hy)).1
      · simp only [negate_term, function_free, negate_list_eq, function_free_list_eq,
          List.all_eq_true]
        intro x hx
        obtain ⟨y, hy, rfl⟩ := List.mem_map.mp hx
        exact (hmem y hy (h y hy)).2
  | huniv vs t ih =>
      intro h
      simp only [function_free] at h
      exact ⟨by simpa [dfs_negate, function_free] using (ih h).1,
        by simpa [negate_term, function_free] using (ih h).2⟩
  | hexist vs t ih =>
      intro h
      simp only [function_free] at h
      exact ⟨by simpa [dfs_negate, function_free] using (ih h).1,
        by simpa [negate_term, function_free] using (ih h).2⟩

/-- After negation pushing, every negation wraps a bare predicate. -/
theorem dfs_negate_nnf : ∀ (t : Logical),
    isNNF (dfs_negate t) = true ∧ isNNF (negate_term t) = true := by
  intro t
  induction t using Logical.myInduction with
  | hpred n args => exact ⟨rfl, rfl⟩
  | hneg t ih => exact ⟨ih.2, ih.1⟩
  | hconj ts hmem =>
      constructor
      · simp only [dfs_negate, isNNF, dfs_negate_list_eq, isNNF_list_eq, List.all_eq_true]
        intro x hx
        obtain ⟨y, hy, rfl⟩ := List.mem_map.mp hx
        exact (hmem y hy).1
      · simp only [negate_term, isNNF, negate_list_eq, isNNF_list_eq, List.all_eq_true]
        intro x hx
        obtain ⟨y, hy, rfl⟩ := List.mem_map.mp hx
        exact (hmem y hy).2
  | hdisj ts hmem =>
      constructor
      · simp only [dfs_negate, isNNF, dfs_negate_list_eq, isNNF_list_eq, List.all_eq_true]
        intro x hx
        obtain ⟨y, hy, rfl⟩ := List.mem_map.mp hx
        exact (hmem y hy).1
      · simp only [negate_term, isNNF, negate_list_eq, isNNF_list_eq, List.all_eq_true]
        intro x hx
        obtain ⟨y, hy, rfl⟩ := List.mem_map.mp hx
        exact (hmem y hy).2
  | huniv vs t ih =>
      exact ⟨by simpa [dfs_negate, isNNF] using ih.1, by simpa [negate_term, isNNF] using ih.2⟩
  | hexist vs t ih =>
      exact ⟨by simpa [dfs_negate, isNNF] using ih.1, by simpa [negate_term, isNNF] using ih.2⟩

/-- In NNF, the extracted matrix is quantifier-free. -/
theorem extract_matrix_qf : ∀ (t : Logical), isNNF t = true →
    quant_free (extract_matrix t) = true := by
  intro t
  induction t using Logical.myInduction with
  | hpred n args => intro _; rfl
  | hneg t ih =>
      intro h
      cases t with
      | pred n args => rfl
      | neg u => simp [isNNF] at h
      | conj ts => simp [isNNF] at h
      | disj ts => simp [isNNF] at h
      | univ vs u => simp [isNNF] at h
      | exist vs u => simp [isNNF] at h
  | hconj ts hmem =>
      intro h
      simp only [isNNF, isNNF_list_eq, List.all_eq_true] at h
      simp only [extract_matrix, quant_free, extract_matrix_list_eq, quant_free_list_eq,
        List.all_eq_true]
      intro x hx
      obtain ⟨y, hy, rfl⟩ := List.mem_map.mp hx
      exact hmem y hy (h y hy)
  | hdisj ts hmem =>
      intro h
      simp only [isNNF, isNNF_list_eq, List.all_eq_true] at h
      simp only [extract_matrix, quant_free, extract_matrix_list_eq, quant_free_list_eq,
        List.all_eq_true]
      intro x hx
      obtain ⟨y, hy, rfl⟩ := List.mem_map.mp hx
      exact hmem y hy (h y hy)
  | huniv vs t ih =>
      intro h
      simp only [isNNF] at h
      simpa [extract_matrix] using ih h
  | hexist vs t ih =>
      intro h
      simp only [isNNF] at h
      simpa [extract_matrix] using ih h

/-- The extracted matrix of an NNF tree is still NNF. -/
theorem extract_matrix_nnf : ∀ (t : Logical), isNNF t = true →
    isNNF (extract_matrix t) = true := by
  intro t
  induction t using Logical.myInduction with
  | hpred n args => intro _; rfl
  | hneg t ih => intro h; exact h
  | hconj ts hmem =>
      intro h
      simp only [isNNF, isNNF_list_eq, List.all_eq_true] at h
      simp only [extract_matrix, isNNF, extract_matrix_list_eq, isNNF_list_eq,
        List.all_eq_true]
      intro x hx
      obtain ⟨y, hy, rfl⟩ := List.mem_map.mp hx
      exact hmem y hy (h y hy)
  | hdisj ts hmem =>
      intro h
      simp only [isNNF, isNNF_list_eq, List.all_eq_true] at h
      simp only [extract_matrix, isNNF, extract_matrix_list_eq, isNNF_list_eq,
        List.all_eq_true]
      intro x hx
      obtain ⟨y, hy, rfl⟩ := List.mem_map.mp hx
      exact hmem y hy (h y hy)
  | huniv vs t ih =>
      intro h
      simp only [isNNF] at h
      simpa [extract_matrix] using ih h
  | hexist vs t ih =>
      intro h
      simp only [isNNF] at h
      simpa [extract_matrix] using ih h

/-- The extracted matrix of a function-free tree is function-free. -/
theorem extract_matrix_ff : ∀ (t : Logical), function_free t = true →
    function_free (extract_matrix t) = true := by
  intro t
  induction t using Logical.myInduction with
  | hpred n args => intro h; exact h
  | hneg t ih => intro h; exact h
  | hconj ts hmem =>
      intro h
      simp only [function_free, function_free_list_eq, List.all_eq_true] at h
      simp only [extract_matrix, function_free, extract_matrix_list_eq,
        function_free_list_eq, List.all_eq_true]
      intro x hx
      obtain ⟨y, hy, rfl⟩ := List.mem_map.mp hx
      exact hmem y hy (h y hy)
  | hdisj ts hmem =>
      intro h
      simp only [function_free, function_free_list_eq, List.all_eq_true] at h
      simp only [extract_matrix, function_free, extract_matrix_list_eq,
        function_free_list_eq, List.all_eq_true]
      intro x hx
      obtain ⟨y, hy, rfl⟩ := List.mem_map.mp hx
      exact hmem y hy (h y hy)
  | huniv vs t ih =>
      intro h
      simp only [function_free] at h
      simpa [extract_matrix] using ih h
  | hexist vs t ih =>
      intro h
      simp only [function_free] at h
      simpa [extract_matrix] using ih h

/-- Rebuilding under a quantifier prefix preserves function-freeness. -/
theorem rebuild_ff : ∀ (p : List (Bool × List String)) (m : Logical),
    function_free m = true → function_free (rebuild p m) = true := by
  intro p
  induction p with
  | nil => intro m h; exact h
  | cons q p ih =>
      intro m h
      obtain ⟨b, vs⟩ := q
      cases b <;> simpa [rebuild, function_free] using ih m h

/-- A clause is in particular a CNF matrix. -/
theorem isCNFMatrix_of_isClause : ∀ (t : Logical), isClause t = true →
    isCNFMatrix t = true := by
  intro t h
  cases t with
  | conj ts => simp [isClause, isLiteral] at h
  | _ => simpa [isCNFMatrix, isClause] using h

/-- A literal is in particular a clause. -/
theorem isClause_of_isLiteral : ∀ (t : Logical), isLiteral t = true →
    isClause t = true := by
  intro t h
  cases t with
  | disj ts => simp [isLiteral] at h
  | _ => simpa [isClause] using h

/-- Rebuilding a CNF matrix under a quantifier prefix is prenex CNF. -/
theorem rebuild_prenex : ∀ (p : List (Bool × List String)) (m : Logical),
    isCNFMatrix m = true → isPrenexCNF (rebuild p m) = true := by
  intro p
  induction p with
  | nil =>
      intro m h
      cases m with
      | univ vs t => simp [isCNFMatrix, isClause, isLiteral] at h
      | exist vs t => simp [isCNFMatrix, isClause, isLiteral] at h
      | _ => simpa [rebuild, isPrenexCNF] using h
  | cons q p ih =>
      intro m h
      obtain ⟨b, vs⟩ := q
      cases b <;> simpa [rebuild, isPrenexCNF] using ih m h

/-- Every element of every clause of a quantifier-free NNF matrix is a
literal. -/
theorem clauses_lits : ∀ (m : Logical), isNNF m = true → quant_free m = true →
    ∀ c ∈ clauses m, ∀ l ∈ c, isLiteral l = true := by
  have hdisj_mem : ∀ (ts : List Logical),
      (∀ t ∈ ts, ∀ c ∈ clauses t, ∀ l ∈ c, isLiteral l = true) →
      ∀ c ∈ clauses_disj ts, ∀ l ∈ c, isLiteral l = true := by
    intro ts
    induction ts with
    | nil =>
        intro _ c hc l hl
        simp only [clauses_disj, List.mem_singleton] at hc
        subst hc
        simp at hl
    | cons t ts ih =>
        intro hmem c hc l hl
        simp only [clauses_disj, List.mem_flatten, List.mem_map] at hc
        obtain ⟨grp, ⟨c1, hc1, rfl⟩, hcgrp⟩ := hc
        obtain ⟨c2, hc2, rfl⟩ := List.mem_map.mp hcgrp
        rcases List.mem_append.mp hl with hl1 | hl2
        · exact hmem t (by simp) c1 hc1 l hl1
        · exact ih (fun u hu => hmem u (by simp [hu])) c2 hc2 l hl2
  intro m
  induction m using Logical.myInduction with
  | hpred n args =>
      intro _ _ c hc l hl
      simp only [clauses, List.mem_singleton] at hc
      subst hc
      simp only [List.mem_singleton] at hl
      subst hl
      rfl
  | hneg t ih =>
      intro hn _ c hc l hl
      cases t with
      | pred na argsa =>
          simp only [clauses, List.mem_singleton] at hc
          subst hc
          simp only [List.mem_singleton] at hl
          subst hl
          rfl
      | neg u => simp [isNNF] at hn
      | conj ts => simp [isNNF] at hn
      | disj ts => simp [isNNF] at hn
      | univ vs u => simp [isNNF] at hn
      | exist vs u => simp [isNNF] at hn
  | hconj ts hmem =>
      intro hn hq c hc l hl
      simp only [isNNF, isNNF_list_eq, List.all_eq_true] at hn
      simp only [quant_free, quant_free_list_eq, List.all_eq_true] at hq
      simp only [clauses, clauses_conj_eq, List.mem_flatten, List.mem_map] at hc
      obtain ⟨grp, ⟨y, hy, rfl⟩, hcy⟩ := hc
      exact hmem y hy (hn y hy) (hq y hy) c hcy l hl
  | hdisj ts hmem =>
      intro hn hq c hc l hl
      simp only [isNNF, isNNF_list_eq, List.all_eq_true] at hn
      simp only [quant_free, quant_free_list_eq, List.all_eq_true] at hq
      simp only [clauses] at hc
      exact hdisj_mem ts (fun u hu => hmem u hu (hn u hu) (hq u hu)) c hc l hl
  | huniv vs t ih => intro _ hq; simp [quant_free] at hq
  | hexist vs t ih => intro _ hq; simp [quant_free] at hq

/-- Every element of every clause of a function-free matrix is
function-free. -/
theorem clauses_ff : ∀ (m : Logical), function_free m = true →
    ∀ c ∈ clauses m, ∀ l ∈ c, function_free l = true := by
  have hdisj_mem : ∀ (ts : List Logical),
      (∀ t ∈ ts, ∀ c ∈ clauses t, ∀ l ∈ c, function_free l = true) →
      ∀ c ∈ clauses_disj ts, ∀ l ∈ c, function_free l = true := by
    intro ts
    induction ts with
    | nil =>
        intro _ c hc l hl
        simp only [clauses_disj, List.mem_singleton] at hc
        subst hc
        simp at hl
    | cons t ts ih =>
        intro hmem c hc l hl
        simp only [clauses_disj, List.mem_flatten, List.mem_map] at hc
        obtain ⟨grp, ⟨c1, hc1, rfl⟩, hcgrp⟩ := hc
        obtain ⟨c2, hc2, rfl⟩ := List.mem_map.mp hcgrp
        rcases List.mem_append.mp hl with hl1 | hl2
        · exact hmem t (by simp) c1 hc1 l hl1
        · exact ih (fun u hu => hmem u (by simp [hu])) c2 hc2 l hl2
  intro m
  induction m using Logical.myInduction with
  | hpred n args =>
      intro h c hc l hl
      simp only [clauses, List.mem_singleton] at hc
      subst hc
      simp only [List.mem_singleton] at hl
      subst hl
      exact h
  | hneg t ih =>
      intro h c hc l hl
      simp only [clauses, List.mem_singleton] at hc
      subst hc
      simp only [List.mem_singleton] at hl
      subst hl
      exact h
  | hconj ts hmem =>
      intro h c hc l hl
      simp only [function_free, function_free_list_eq, List.all_eq_true] at h
      simp only [clauses, clauses_conj_eq, List.mem_flatten, List.mem_map] at hc
      obtain ⟨grp, ⟨y, hy, rfl⟩, hcy⟩ := hc
      exact hmem y hy (h y hy) c hcy l hl
  | hdisj ts hmem =>
      intro h c hc l hl
      simp only [function_free, function_free_list_eq, List.all_eq_true] at h
      simp only [clauses] at hc
      exact hdisj_mem ts (fun u hu => hmem u hu (h u hu)) c hc l hl
  | huniv vs t ih =>
      intro h c hc l hl
      simp only [clauses, List.mem_singleton] at hc
      subst hc
      simp only [List.mem_singleton] at hl
      subst hl
      exact h
  | hexist vs t ih =>
      intro h c hc l hl
      simp only [clauses, List.mem_singleton] at hc
      subst hc
      simp only [List.mem_singleton] at hl
      subst hl
      exact h

theorem mkClause_isClause (c : List Logical)
    (h : ∀ l ∈ c, isLiteral l = true) : isClause (mkClause c) = true := by
  cases c with
  | nil => rfl
  | cons l ls =>
      cases ls with
      | nil => exact isClause_of_isLiteral l (h l (by simp))
      | cons l' ls' =>
          simp only [mkClause, isClause, List.all_eq_true]
          intro x hx
          exact h x hx

theorem mkClause_ff (c : List Logical)
    (h : ∀ l ∈ c, function_free l = true) : function_free (mkClause c) = true := by
  cases c with
  | nil => rfl
  | cons l ls =>
      cases ls with
      | nil => exact h l (by simp)
      | cons l' ls' =>
          simp only [mkClause, function_free, function_free_list_eq, List.all_eq_true]
          intro x hx
          exact h x hx

theorem mkCNF_isCNF (cs : List (List Logical))
    (h : ∀ c ∈ cs, ∀ l ∈ c, isLiteral l = true) : isCNFMatrix (mkCNF cs) = true := by
  cases cs with
  | nil => rfl
  | cons c cs' =>
      cases cs' with
      | nil => exact isCNFMatrix_of_isClause _ (mkClause_isClause c (h c (by simp)))
      | cons c' cs'' =>
          simp only [mkCNF, isCNFMatrix, List.all_eq_true]
          intro x hx
          obtain ⟨y, hy, rfl⟩ := List.mem_map.mp hx
          exact mkClause_isClause y (h y hy)

theorem mkCNF_ff (cs : List (List Logical))
    (h : ∀ c ∈ cs, ∀ l ∈ c, function_free l = true) : function_free (mkCNF cs) = true := by
  cases cs with
  | nil => rfl
  | cons c cs' =>
      cases cs' with
      | nil => exact mkClause_ff c (h c (by simp))
      | cons c' cs'' =>
          simp only [mkCNF, function_free, function_free_list_eq, List.all_eq_true]
          intro x hx
          obtain ⟨y, hy, rfl⟩ := List.mem_map.mp hx
          exact mkClause_ff y (h y hy)

/-- `to_onf` commutes with the quantifier prefix and distributes the
quantifier-free matrix. -/
theorem to_onf_rebuild : ∀ (p : List (Bool × List String)) (m : Logical),
    quant_free m = true → to_onf (rebuild p m) = rebuild p (mkCNF (clauses m)) := by
  intro p
  induction p with
  | nil =>
      intro m h
      cases m with
      | univ vs t => simp [quant_free] at h
      | exist vs t => simp [quant_free] at h
      | _ => rfl
  | cons q p ih =>
      intro m h
      obtain ⟨b, vs⟩ := q
      cases b <;> simp [rebuild, to_onf, ih m h]

/-- C1: for every axiom (and any counter states), `ff_pcnf` — the five
stages `substitute_functions`, `standardize_variables`, `push_negation`,
`create_prenex`, `distribute_disjunctions` in that fixed order — returns
an axiom whose tree contains no `Function` node, in which every
quantifier is outermost (a quantifier spine, no quantifier below a
connective or negation), and whose quantifier-free matrix is a
conjunction of disjunctions of possibly negated atomic predicates. -/
theorem C1_ff_pcnf_closure (a : Axiom) (ctr fctr : Nat) :
    function_free ((a.ff_pcnf ctr fctr).1.sentence) = true ∧
    isPrenexCNF ((a.ff_pcnf ctr fctr).1.sentence) = true := by
  have hsent : (a.ff_pcnf ctr fctr).1.sentence
      = to_onf (create_prenex_logical (dfs_negate
          (dfs_standardize (dfs_functions a.sentence fctr).1 [] 0).1)) := rfl
  have h1 : function_free (dfs_functions a.sentence fctr).1 = true :=
    dfs_functions_ff a.sentence fctr
  have h2 : function_free (dfs_standardize (dfs_functions a.sentence fctr).1 [] 0).1
      = true := dfs_standardize_ff _ [] 0 h1
  have h3f : function_free (dfs_negate
      (dfs_standardize (dfs_functions a.sentence fctr).1 [] 0).1) = true :=
    (dfs_negate_ff _ h2).1
  have h3n : isNNF (dfs_negate
      (dfs_standardize (dfs_functions a.sentence fctr).1 [] 0).1) = true :=
    (dfs_negate_nnf _).1
  have hm_qf := extract_matrix_qf _ h3n
  have hm_nnf := extract_matrix_nnf _ h3n
  have hm_ff := extract_matrix_ff _ h3f
  rw [hsent]
  unfold create_prenex_logical
  rw [to_onf_rebuild _ _ hm_qf]
  constructor
  · exact rebuild_ff _ _ (mkCNF_ff _ (clauses_ff _ hm_ff))
  · exact rebuild_prenex _ _ (mkCNF_isCNF _ (clauses_lits _ hm_nnf hm_qf))

/-- C2: the axiom `∀(x,y,z)[A(x) ∨ (B(y) ∧ C(z))]` pipelined to FF-PCNF
renders exactly as `∀(z,y,x)[((A(z) | B(y)) & (A(z) | C(x)))]`: the
bound-variable order is reversed to `z,y,x` by standardization plus
prenexing, and the output is the same whatever the ambient axiom-id and
fresh-name counter states — a fixed, reproducible result. -/
theorem C2_pcnf_scenario (i ctr fctr : Nat) :
    repr_logical ((Axiom.ff_pcnf
        ⟨.univ ["x", "y", "z"]
          (.disj [.pred "A" [.var "x"],
                  .conj [.pred "B" [.var "y"], .pred "C" [.var "z"]]]), i⟩
        ctr fctr).1.sentence)
      = "∀(z,y,x)[((A(z) | B(y)) & (A(z) | C(x)))]" := by
  rfl

end Macleod
